import Mathlib

/-!
Shallow embedding of src/src/crypto/zinc/blake2s/blake2s.c (BLAKE2s hash and
HMAC).  Machine words are natural numbers reduced mod 2^32 at every operation
that can overflow; byte strings are lists of naturals.  The generic compression
path is modelled (the architecture hook blake2s_arch returns false in this
tree).
-/

namespace Blake2s

/-- Rotate a 32-bit word right by n bits (ror32 from the kernel headers). -/
def ror32 (x n : Nat) : Nat := ((x >>> n) ||| (x <<< (32 - n))) % 2 ^ 32

/-- The eight BLAKE2s initialization-vector constants (blake2s_iv). -/
def blake2s_iv : List Nat :=
  [0x6A09E667, 0xBB67AE85, 0x3C6EF372, 0xA54FF53A,
   0x510E527F, 0x9B05688C, 0x1F83D9AB, 0x5BE0CD19]

/-- The ten message-schedule permutations (blake2s_sigma). -/
def blake2s_sigma : List (List Nat) :=
  [[0, 1, 2, 3, 4, 5, 6, 7, 8, 9, 10, 11, 12, 13, 14, 15],
   [14, 10, 4, 8, 9, 15, 13, 6, 1, 12, 0, 2, 11, 7, 5, 3],
   [11, 8, 12, 0, 5, 2, 15, 13, 10, 14, 3, 6, 7, 1, 9, 4],
   [7, 9, 3, 1, 13, 12, 11, 14, 2, 6, 5, 10, 4, 0, 15, 8],
   [9, 0, 5, 7, 2, 4, 10, 15, 14, 1, 11, 12, 6, 8, 3, 13],
   [2, 12, 6, 10, 0, 11, 8, 3, 4, 13, 7, 5, 15, 14, 1, 9],
   [12, 5, 1, 15, 14, 13, 4, 10, 0, 7, 6, 3, 9, 2, 8, 11],
   [13, 11, 7, 14, 12, 1, 3, 9, 5, 0, 15, 4, 8, 6, 2, 10],
   [6, 15, 14, 9, 11, 3, 0, 8, 12, 2, 13, 7, 1, 4, 10, 5],
   [10, 2, 8, 4, 7, 6, 1, 5, 15, 11, 9, 14, 3, 12, 13, 0]]

/-- Entry j of permutation r, blake2s_sigma[r][j]. -/
def sig (r j : Nat) : Nat := (blake2s_sigma.getD r []).getD j 0

/-- Word i of the IV table. -/
def iv (i : Nat) : Nat := blake2s_iv.getD i 0

/-- struct blake2s_state: chain value h[8], counter t[2] (as t0, t1),
finalization flags f[2] (as f0, f1), input buffer buf[64] with fill length
buflen, and the tree-mode last_node flag. -/
structure Blake2sState where
  h : List Nat
  t0 : Nat
  t1 : Nat
  f0 : Nat
  f1 : Nat
  buf : List Nat
  buflen : Nat
  last_node : Nat
deriving DecidableEq

/-- memcpy(buf + off, src, src.length) on a byte list. -/
def bufWrite (buf : List Nat) (off : Nat) (src : List Nat) : List Nat :=
  buf.take off ++ src ++ buf.drop (off + src.length)

/-- blake2s_set_lastblock: f[0] = -1 always, f[1] = -1 when last_node. -/
def blake2s_set_lastblock (st : Blake2sState) : Blake2sState :=
  let st := if st.last_node ≠ 0 then { st with f1 := 2 ^ 32 - 1 } else st
  { st with f0 := 2 ^ 32 - 1 }

/-- blake2s_increment_counter: t[0] += inc (32-bit wrap), t[1] += carry. -/
def blake2s_increment_counter (st : Blake2sState) (inc : Nat) : Blake2sState :=
  let t0 := (st.t0 + inc) % 2 ^ 32
  { st with t0 := t0, t1 := (st.t1 + if t0 < inc then 1 else 0) % 2 ^ 32 }

/-- blake2s_param: the packed parameter block. -/
structure blake2s_param where
  digest_length : Nat
  key_length : Nat
  fanout : Nat
  depth : Nat
  leaf_length : Nat
  node_offset : Nat
  xof_length : Nat
  node_depth : Nat
  inner_length : Nat
  salt : List Nat
  personal : List Nat

/-- Little-endian 4-byte serialization of a 32-bit word. -/
def le32Bytes (w : Nat) : List Nat := [w % 256, w / 256 % 256, w / 65536 % 256, w / 16777216 % 256]

/-- Little-endian 2-byte serialization of a 16-bit field. -/
def le16Bytes (w : Nat) : List Nat := [w % 256, w / 256 % 256]

/-- The 32-byte little-endian packing of the parameter block (the __packed
struct layout of blake2s_param). -/
def paramBytes (p : blake2s_param) : List Nat :=
  [p.digest_length, p.key_length, p.fanout, p.depth] ++
    le32Bytes p.leaf_length ++ le32Bytes p.node_offset ++ le16Bytes p.xof_length ++
    [p.node_depth, p.inner_length] ++ p.salt ++ p.personal

/-- le32_to_cpu of 4 consecutive bytes at offset off. -/
def le32At (bytes : List Nat) (off : Nat) : Nat :=
  bytes.getD off 0 + 256 * bytes.getD (off + 1) 0 + 65536 * bytes.getD (off + 2) 0 +
    16777216 * bytes.getD (off + 3) 0

/-- Word i of the packed parameter block, param->words[i]. -/
def paramWord (p : blake2s_param) (i : Nat) : Nat := le32At (paramBytes p) (4 * i)

/-- blake2s_init_param: memset the state to zero, then h[i] = IV[i] ^ le32(words[i])
for i = 0..7 (the loop unrolled). -/
def blake2s_init_param (p : blake2s_param) : Blake2sState :=
  { h := [iv 0 ^^^ paramWord p 0, iv 1 ^^^ paramWord p 1, iv 2 ^^^ paramWord p 2,
          iv 3 ^^^ paramWord p 3, iv 4 ^^^ paramWord p 4, iv 5 ^^^ paramWord p 5,
          iv 6 ^^^ paramWord p 6, iv 7 ^^^ paramWord p 7],
    t0 := 0, t1 := 0, f0 := 0, f1 := 0,
    buf := List.replicate 64 0, buflen := 0, last_node := 0 }

/-- The parameter block blake2s_init and blake2s_init_key build: the given
digest and key lengths, fanout = 1, depth = 1, every other field zero. -/
def blake2s_default_param (outlen keylen : Nat) : blake2s_param :=
  { digest_length := outlen, key_length := keylen, fanout := 1, depth := 1,
    leaf_length := 0, node_offset := 0, xof_length := 0, node_depth := 0,
    inner_length := 0, salt := List.replicate 8 0, personal := List.replicate 8 0 }

/-- blake2s_init: parameter block with digest_length = outlen, fanout 1, depth 1. -/
def blake2s_init (outlen : Nat) : Blake2sState :=
  blake2s_init_param (blake2s_default_param outlen 0)

/-- One application of the G macro: G(r, i, v[ia], v[ib], v[ic], v[id]). -/
def blake2s_g (m : List Nat) (r i ia ib ic id : Nat) (v : List Nat) : List Nat :=
  let a := v.getD ia 0
  let b := v.getD ib 0
  let c := v.getD ic 0
  let d := v.getD id 0
  let a := (a + b + m.getD (sig r (2 * i)) 0) % 2 ^ 32
  let d := ror32 (d ^^^ a) 16
  let c := (c + d) % 2 ^ 32
  let b := ror32 (b ^^^ c) 12
  let a := (a + b + m.getD (sig r (2 * i + 1)) 0) % 2 ^ 32
  let d := ror32 (d ^^^ a) 8
  let c := (c + d) % 2 ^ 32
  let b := ror32 (b ^^^ c) 7
  (((v.set ia a).set ib b).set ic c).set id d

/-- One application of the ROUND macro: four column steps then four diagonal steps. -/
def blake2s_round (m : List Nat) (r : Nat) (v : List Nat) : List Nat :=
  let v := blake2s_g m r 0 0 4 8 12 v
  let v := blake2s_g m r 1 1 5 9 13 v
  let v := blake2s_g m r 2 2 6 10 14 v
  let v := blake2s_g m r 3 3 7 11 15 v
  let v := blake2s_g m r 4 0 5 10 15 v
  let v := blake2s_g m r 5 1 6 11 12 v
  let v := blake2s_g m r 6 2 7 8 13 v
  let v := blake2s_g m r 7 3 4 9 14 v
  v

/-- One iteration of the while loop of blake2s_compress: bump the counter,
load the 16 little-endian message words, run the 10 rounds, feed forward. -/
def blake2s_compress_block (st : Blake2sState) (block : List Nat) (inc : Nat) : Blake2sState :=
  let st := blake2s_increment_counter st inc
  let m := [le32At block 0, le32At block 4, le32At block 8, le32At block 12,
            le32At block 16, le32At block 20, le32At block 24, le32At block 28,
            le32At block 32, le32At block 36, le32At block 40, le32At block 44,
            le32At block 48, le32At block 52, le32At block 56, le32At block 60]
  let v := st.h ++
    [iv 0, iv 1, iv 2, iv 3,
     iv 4 ^^^ st.t0, iv 5 ^^^ st.t1, iv 6 ^^^ st.f0, iv 7 ^^^ st.f1]
  let v := blake2s_round m 0 v
  let v := blake2s_round m 1 v
  let v := blake2s_round m 2 v
  let v := blake2s_round m 3 v
  let v := blake2s_round m 4 v
  let v := blake2s_round m 5 v
  let v := blake2s_round m 6 v
  let v := blake2s_round m 7 v
  let v := blake2s_round m 8 v
  let v := blake2s_round m 9 v
  { st with h :=
      [st.h.getD 0 0 ^^^ v.getD 0 0 ^^^ v.getD 8 0, st.h.getD 1 0 ^^^ v.getD 1 0 ^^^ v.getD 9 0,
       st.h.getD 2 0 ^^^ v.getD 2 0 ^^^ v.getD 10 0, st.h.getD 3 0 ^^^ v.getD 3 0 ^^^ v.getD 11 0,
       st.h.getD 4 0 ^^^ v.getD 4 0 ^^^ v.getD 12 0, st.h.getD 5 0 ^^^ v.getD 5 0 ^^^ v.getD 13 0,
       st.h.getD 6 0 ^^^ v.getD 6 0 ^^^ v.getD 14 0,
       st.h.getD 7 0 ^^^ v.getD 7 0 ^^^ v.getD 15 0] }

/-- blake2s_compress on nblocks consecutive 64-byte blocks (generic path;
blake2s_arch returns false in this tree). -/
def blake2s_compress (st : Blake2sState) (blocks : List Nat) (nblocks : Nat) (inc : Nat) :
    Blake2sState :=
  match nblocks with
  | 0 => st
  | n + 1 => blake2s_compress (blake2s_compress_block st (blocks.take 64) inc) (blocks.drop 64) n inc

/-- Lines 220-229 of blake2s_update: compress all but the last full block
directly from the input, then buffer whatever remains. -/
def blake2s_update_tail (st : Blake2sState) (input : List Nat) : Blake2sState :=
  if input.length > 64 then
    let nblocks := (input.length + 64 - 1) / 64
    let st := blake2s_compress st input (nblocks - 1) 64
    let input := input.drop (64 * (nblocks - 1))
    { st with buf := bufWrite st.buf st.buflen input, buflen := st.buflen + input.length }
  else
    { st with buf := bufWrite st.buf st.buflen input, buflen := st.buflen + input.length }

/-- blake2s_update: no-op on empty input; top the buffer off and compress it
when the input strictly exceeds the free space; then the tail loop. -/
def blake2s_update (st : Blake2sState) (input : List Nat) : Blake2sState :=
  if input.length = 0 then st
  else if input.length > 64 - st.buflen then
    blake2s_update_tail
      { blake2s_compress { st with buf := bufWrite st.buf st.buflen (input.take (64 - st.buflen)) }
          (bufWrite st.buf st.buflen (input.take (64 - st.buflen))) 1 64
        with buflen := 0 }
      (input.drop (64 - st.buflen))
  else blake2s_update_tail st input

/-- blake2s_final: mark the last block, zero-pad the residual, compress it
once with inc = buflen, serialize the chain value little-endian and copy the
first outlen bytes out, then memzero the whole state. -/
def blake2s_final (st : Blake2sState) (outlen : Nat) : List Nat × Blake2sState :=
  let st := blake2s_set_lastblock st
  let st := { st with buf := bufWrite st.buf st.buflen (List.replicate (64 - st.buflen) 0) }
  let st := blake2s_compress st st.buf 1 st.buflen
  ((st.h.flatMap le32Bytes).take outlen,
   { h := List.replicate 8 0, t0 := 0, t1 := 0, f0 := 0, f1 := 0,
     buf := List.replicate 64 0, buflen := 0, last_node := 0 })

/-- blake2s_init_key: keyed init feeds the zero-padded key block through
blake2s_update immediately after blake2s_init_param. -/
def blake2s_init_key (outlen : Nat) (key : List Nat) : Blake2sState :=
  let st := blake2s_init_param (blake2s_default_param outlen key.length)
  blake2s_update st (bufWrite (List.replicate 64 0) 0 key)

/-- blake2s_hmac: the standard two-pass HMAC construction over BLAKE2s-256. -/
def blake2s_hmac (input key : List Nat) (outlen : Nat) : List Nat :=
  let x_key :=
    if key.length > 64 then
      let st := blake2s_init 32
      let st := blake2s_update st key
      bufWrite (List.replicate 64 0) 0 (blake2s_final st 32).1
    else bufWrite (List.replicate 64 0) 0 key
  let x_key := x_key.map fun b => b ^^^ 0x36
  let st := blake2s_init 32
  let st := blake2s_update st x_key
  let st := blake2s_update st input
  let i_hash := (blake2s_final st 32).1
  let x_key := x_key.map fun b => b ^^^ (0x5c ^^^ 0x36)
  let st := blake2s_init 32
  let st := blake2s_update st x_key
  let st := blake2s_update st i_hash
  let i_hash := (blake2s_final st 32).1
  i_hash.take outlen

/-- Unkeyed one-shot BLAKE2s with the native 32-byte output. -/
def blake2s_hash (m : List Nat) : List Nat :=
  (blake2s_final (blake2s_update (blake2s_init 32) m) 32).1

/-- The claim wording's HMAC formula: H((K XOR 0x5c-pad) || H((K XOR 0x36-pad)
|| message)) truncated to outlen bytes, where H is unkeyed 32-byte BLAKE2s and
K is the key zero-padded to 64 bytes, first hashed down to 32 bytes when it is
longer than one block. -/
def hmac_spec (input key : List Nat) (outlen : Nat) : List Nat :=
  let kp := if key.length ≤ 64
    then key ++ List.replicate (64 - key.length) 0
    else blake2s_hash key ++ List.replicate 32 0
  (blake2s_hash ((kp.map fun b => b ^^^ 0x5c) ++
    blake2s_hash ((kp.map fun b => b ^^^ 0x36) ++ input))).take outlen

/-- Equality of the fields the compression function reads and writes. -/
def CoreEq (s s' : Blake2sState) : Prop :=
  s.h = s'.h ∧ s.t0 = s'.t0 ∧ s.t1 = s'.t1 ∧ s.f0 = s'.f0 ∧ s.f1 = s'.f1

/-- Characterization of an update call: p is the previously buffered residual
followed by the new input, and k counts the 64-byte blocks the call compressed
(with inc = 64 each); the new residual is what p holds beyond those blocks. -/
def UpdSpecAt (st u : Blake2sState) (p : List Nat) (k : Nat) : Prop :=
  CoreEq u (blake2s_compress st (p.take (64 * k)) k 64) ∧
  u.last_node = st.last_node ∧
  u.buflen = p.length - 64 * k ∧
  u.buf.take u.buflen = p.drop (64 * k) ∧
  u.buf.length = 64

/-- States that agree on everything the remaining computation can observe:
core fields, fill length, buffered prefix, and the tree flag.  The bytes of
the internal buffer beyond the fill length are dead storage. -/
def StEquiv (s s' : Blake2sState) : Prop :=
  CoreEq s s' ∧ s.buflen = s'.buflen ∧ s.buf.take s.buflen = s'.buf.take s'.buflen ∧
    s.last_node = s'.last_node

/-! ### Structural lemmas about the embedding -/

theorem coreEq_refl (s : Blake2sState) : CoreEq s s := ⟨rfl, rfl, rfl, rfl, rfl⟩

theorem coreEq_symm {s s' : Blake2sState} (h : CoreEq s s') : CoreEq s' s :=
  ⟨h.1.symm, h.2.1.symm, h.2.2.1.symm, h.2.2.2.1.symm, h.2.2.2.2.symm⟩

theorem coreEq_trans {s s' s'' : Blake2sState} (h : CoreEq s s') (h' : CoreEq s' s'') :
    CoreEq s s'' :=
  ⟨h.1.trans h'.1, h.2.1.trans h'.2.1, h.2.2.1.trans h'.2.2.1,
   h.2.2.2.1.trans h'.2.2.2.1, h.2.2.2.2.trans h'.2.2.2.2⟩

theorem coreEq_of_eq {s s' : Blake2sState} (h : s = s') : CoreEq s s' := h ▸ coreEq_refl s

theorem bufWrite_length (buf src : List Nat) (off : Nat) (h : off ≤ buf.length) :
    (bufWrite buf off src).length = max buf.length (off + src.length) := by
  simp [bufWrite]
  omega

theorem bufWrite_take (buf src : List Nat) (off : Nat) (h : off ≤ buf.length) :
    (bufWrite buf off src).take (off + src.length) = buf.take off ++ src := by
  have h1 : (buf.take off).length = off := by
    simp [List.length_take]
    omega
  have hlen : (buf.take off ++ src).length = off + src.length := by
    simp [List.length_take]
    omega
  rw [bufWrite, List.take_append_eq_append_take, hlen, Nat.sub_self, List.take_zero,
    List.append_nil, List.take_of_length_le (le_of_eq hlen)]

theorem compress_block_rest (st : Blake2sState) (block : List Nat) (inc : Nat) :
    (blake2s_compress_block st block inc).buf = st.buf ∧
    (blake2s_compress_block st block inc).buflen = st.buflen ∧
    (blake2s_compress_block st block inc).f0 = st.f0 ∧
    (blake2s_compress_block st block inc).f1 = st.f1 ∧
    (blake2s_compress_block st block inc).last_node = st.last_node :=
  ⟨rfl, rfl, rfl, rfl, rfl⟩

theorem compress_rest (n : Nat) : ∀ (st : Blake2sState) (blocks : List Nat) (inc : Nat),
    (blake2s_compress st blocks n inc).buf = st.buf ∧
    (blake2s_compress st blocks n inc).buflen = st.buflen ∧
    (blake2s_compress st blocks n inc).f0 = st.f0 ∧
    (blake2s_compress st blocks n inc).f1 = st.f1 ∧
    (blake2s_compress st blocks n inc).last_node = st.last_node := by
  induction n with
  | zero => intro st blocks inc; exact ⟨rfl, rfl, rfl, rfl, rfl⟩
  | succ n ih =>
    intro st blocks inc
    simp only [blake2s_compress]
    obtain ⟨i1, i2, i3, i4, i5⟩ := ih (blake2s_compress_block st (blocks.take 64) inc) (blocks.drop 64) inc
    obtain ⟨b1, b2, b3, b4, b5⟩ := compress_block_rest st (blocks.take 64) inc
    exact ⟨i1.trans b1, i2.trans b2, i3.trans b3, i4.trans b4, i5.trans b5⟩

theorem compress_block_congr {s s' : Blake2sState} (block : List Nat) (inc : Nat)
    (h : CoreEq s s') :
    CoreEq (blake2s_compress_block s block inc) (blake2s_compress_block s' block inc) := by
  obtain ⟨h1, h2, h3, h4, h5⟩ := h
  simp only [CoreEq, blake2s_compress_block, blake2s_increment_counter, h1, h2, h3, h4, h5]
  simp

theorem compress_congr (n : Nat) : ∀ {s s' : Blake2sState} (blocks : List Nat) (inc : Nat),
    CoreEq s s' → CoreEq (blake2s_compress s blocks n inc) (blake2s_compress s' blocks n inc) := by
  induction n with
  | zero => intro s s' blocks inc h; exact h
  | succ n ih =>
    intro s s' blocks inc h
    simp only [blake2s_compress]
    exact ih (blocks.drop 64) inc (compress_block_congr (blocks.take 64) inc h)

theorem compress_take (n : Nat) : ∀ (st : Blake2sState) (blocks : List Nat) (inc : Nat),
    blake2s_compress st blocks n inc = blake2s_compress st (blocks.take (64 * n)) n inc := by
  induction n with
  | zero => intro st blocks inc; rfl
  | succ n ih =>
    intro st blocks inc
    simp only [blake2s_compress]
    have h1 : (blocks.take (64 * (n + 1))).take 64 = blocks.take 64 := by
      rw [List.take_take]
      have : min 64 (64 * (n + 1)) = 64 := by omega
      rw [this]
    have h2 : (blocks.take (64 * (n + 1))).drop 64 = (blocks.drop 64).take (64 * n) := by
      rw [List.drop_take]
      have h3 : 64 * (n + 1) - 64 = 64 * n := by omega
      rw [h3]
    rw [h1, h2, ih (blake2s_compress_block st (blocks.take 64) inc) (blocks.drop 64) inc]

theorem compress_append (j : Nat) : ∀ (k : Nat) (st : Blake2sState) (u v : List Nat) (inc : Nat),
    u.length = 64 * j →
    blake2s_compress st (u ++ v) (j + k) inc =
      blake2s_compress (blake2s_compress st u j inc) v k inc := by
  induction j with
  | zero =>
    intro k st u v inc hu
    have hnil : u = [] := List.eq_nil_of_length_eq_zero (by omega)
    subst hnil
    simp [blake2s_compress]
  | succ j ih =>
    intro k st u v inc hu
    have h1 : j + 1 + k = (j + k) + 1 := by omega
    rw [h1]
    simp only [blake2s_compress]
    rw [List.take_append_of_le_length (by omega), List.drop_append_of_le_length (by omega),
      ih k (blake2s_compress_block st (u.take 64) inc) (u.drop 64) v inc (by simp; omega)]

theorem update_nil (st : Blake2sState) : blake2s_update st [] = st := by
  simp [blake2s_update]

theorem update_tail_spec (st : Blake2sState) (input : List Nat)
    (h0 : st.buflen = 0) (hl : st.buf.length = 64) :
    UpdSpecAt st (blake2s_update_tail st input) input ((input.length - 1) / 64) := by
  by_cases h64 : input.length > 64
  · have hk : (input.length - 1) / 64 = (input.length + 64 - 1) / 64 - 1 := by omega
    have hblocks : 64 * ((input.length + 64 - 1) / 64 - 1) < input.length := by omega
    have hub : input.length ≤ 64 * ((input.length + 64 - 1) / 64 - 1) + 64 := by omega
    obtain ⟨r1, r2, r3, r4, r5⟩ := compress_rest ((input.length + 64 - 1) / 64 - 1) st input 64
    unfold UpdSpecAt
    simp only [blake2s_update_tail, if_pos h64]
    rw [hk]
    refine ⟨?_, ?_, ?_, ?_, ?_⟩
    · exact @coreEq_trans _ (blake2s_compress st input ((input.length + 64 - 1) / 64 - 1) 64) _
        ⟨rfl, rfl, rfl, rfl, rfl⟩ (coreEq_of_eq (compress_take _ st input 64))
    · exact r5
    · simp only [r2, h0, List.length_drop]
      omega
    · simp only [r1, r2, h0, List.length_drop]
      have hD : (List.drop (64 * ((input.length + 64 - 1) / 64 - 1)) input).length =
          input.length - 64 * ((input.length + 64 - 1) / 64 - 1) := by
        simp
      rw [← hD, bufWrite_take st.buf _ 0 (by omega)]
      simp
    · simp only [r1, r2, h0]
      rw [bufWrite_length st.buf _ 0 (by omega), hl]
      simp only [List.length_drop]
      omega
  · have hk : (input.length - 1) / 64 = 0 := by omega
    unfold UpdSpecAt
    simp only [blake2s_update_tail, if_neg h64]
    rw [hk]
    refine ⟨?_, ?_, ?_, ?_, ?_⟩
    · exact ⟨rfl, rfl, rfl, rfl, rfl⟩
    · trivial
    · simp only [h0]
      omega
    · simp only [h0]
      simpa using bufWrite_take st.buf input 0 (by omega)
    · simp only [h0]
      rw [bufWrite_length st.buf input 0 (by omega), hl]
      omega

theorem update_spec (st : Blake2sState) (input : List Nat)
    (hb : st.buflen ≤ 64) (hl : st.buf.length = 64) :
    UpdSpecAt st (blake2s_update st input) (st.buf.take st.buflen ++ input)
      (((st.buf.take st.buflen ++ input).length - 1) / 64) := by
  have hTl : (st.buf.take st.buflen).length = st.buflen := by
    simp [List.length_take]
    omega
  have hPlen : (st.buf.take st.buflen ++ input).length = st.buflen + input.length := by
    simp [hTl]
  by_cases hz : input.length = 0
  · have hnil : input = [] := List.eq_nil_of_length_eq_zero hz
    subst hnil
    rw [update_nil]
    unfold UpdSpecAt
    have hk : ((st.buf.take st.buflen ++ ([] : List Nat)).length - 1) / 64 = 0 := by
      rw [hPlen]
      omega
    rw [hk]
    refine ⟨⟨rfl, rfl, rfl, rfl, rfl⟩, rfl, ?_, ?_, hl⟩
    · rw [hPlen]
      omega
    · simp
  · by_cases hfill : input.length > 64 - st.buflen
    · -- the input strictly exceeds the free buffer space: top off and compress
      have hfl : (input.take (64 - st.buflen)).length = 64 - st.buflen := by
        simp [List.length_take]
        omega
      set B := bufWrite st.buf st.buflen (input.take (64 - st.buflen)) with hBdef
      set IN1 := input.drop (64 - st.buflen) with hIN1def
      have hB : B = (st.buf.take st.buflen ++ input).take 64 := by
        rw [hBdef, bufWrite, hfl]
        have h2 : st.buflen + (64 - st.buflen) = 64 := by omega
        rw [h2, List.drop_eq_nil_of_le (by omega), List.append_nil,
          List.take_append_eq_append_take, hTl, List.take_take]
        have h1 : min 64 st.buflen = st.buflen := by omega
        rw [h1]
      have hBlen : B.length = 64 := by
        rw [hBdef, bufWrite_length st.buf _ st.buflen (by omega), hfl, hl]
        omega
      set S2 := ({ blake2s_compress { st with buf := B } B 1 64 with buflen := 0 } :
        Blake2sState) with hS2def
      have hu : blake2s_update st input = blake2s_update_tail S2 IN1 := by
        rw [hS2def, hBdef, hIN1def]
        simp only [blake2s_update, if_neg hz, if_pos hfill]
      have hS2buf : S2.buf = B := by
        rw [hS2def]
        exact (compress_rest 1 { st with buf := B } B 64).1
      have hS2buflen : S2.buflen = 0 := by
        rw [hS2def]
      have hS2last : S2.last_node = st.last_node := by
        rw [hS2def]
        exact (compress_rest 1 { st with buf := B } B 64).2.2.2.2
      have hS2core : CoreEq S2 (blake2s_compress st ((st.buf.take st.buflen ++ input).take 64) 1 64) := by
        have c1 : CoreEq S2 (blake2s_compress { st with buf := B } B 1 64) := by
          rw [hS2def]
          exact ⟨rfl, rfl, rfl, rfl, rfl⟩
        have c2 : CoreEq ({ st with buf := B } : Blake2sState) st := ⟨rfl, rfl, rfl, rfl, rfl⟩
        have c3 : blake2s_compress st B 1 64 =
            blake2s_compress st ((st.buf.take st.buflen ++ input).take 64) 1 64 := by rw [hB]
        exact coreEq_trans c1 (coreEq_trans (compress_congr 1 B 64 c2) (coreEq_of_eq c3))
      obtain ⟨T1, T2, T3, T4, T5⟩ :=
        update_tail_spec S2 IN1 hS2buflen (by rw [hS2buf]; exact hBlen)
      have hpd : (st.buf.take st.buflen ++ input).drop 64 = IN1 := by
        rw [hIN1def, List.drop_append_eq_append_drop, hTl, List.drop_eq_nil_of_le (by omega),
          List.nil_append]
      have htk : ((st.buf.take st.buflen ++ input).take 64).length = 64 := by
        rw [List.length_take, hPlen]
        omega
      have hk : ((st.buf.take st.buflen ++ input).length - 1) / 64 =
          (IN1.length - 1) / 64 + 1 := by
        rw [hPlen, hIN1def, List.length_drop]
        omega
      rw [hu]
      unfold UpdSpecAt
      rw [hk]
      refine ⟨?_, ?_, ?_, ?_, T5⟩
      · have hsplit : (st.buf.take st.buflen ++ input).take (64 * ((IN1.length - 1) / 64 + 1)) =
            (st.buf.take st.buflen ++ input).take 64 ++ IN1.take (64 * ((IN1.length - 1) / 64)) := by
          rw [show 64 * ((IN1.length - 1) / 64 + 1) = 64 + 64 * ((IN1.length - 1) / 64) from by
              ring,
            List.take_add, hpd]
        rw [hsplit,
          show (IN1.length - 1) / 64 + 1 = 1 + (IN1.length - 1) / 64 from by omega,
          compress_append 1 ((IN1.length - 1) / 64) st ((st.buf.take st.buflen ++ input).take 64)
            (IN1.take (64 * ((IN1.length - 1) / 64))) 64 htk]
        exact coreEq_trans T1 (compress_congr ((IN1.length - 1) / 64)
          (IN1.take (64 * ((IN1.length - 1) / 64))) 64 hS2core)
      · rw [T2, hS2last]
      · rw [T3, hIN1def, List.length_drop, hPlen]
        omega
      · rw [T4,
          show 64 * ((IN1.length - 1) / 64 + 1) = 64 + 64 * ((IN1.length - 1) / 64) from by ring,
          ← List.drop_drop, hpd]
    · -- the input fits in the buffer: pure memcpy
      have hk : ((st.buf.take st.buflen ++ input).length - 1) / 64 = 0 := by
        rw [hPlen]
        omega
      have htail : ¬ input.length > 64 := by omega
      simp only [blake2s_update, if_neg hz, if_neg hfill, blake2s_update_tail, if_neg htail]
      unfold UpdSpecAt
      rw [hk]
      refine ⟨⟨rfl, rfl, rfl, rfl, rfl⟩, rfl, ?_, ?_, ?_⟩
      · show st.buflen + input.length = (st.buf.take st.buflen ++ input).length - 64 * 0
        rw [hPlen]
        omega
      · simpa using bufWrite_take st.buf input st.buflen (by omega)
      · rw [bufWrite_length st.buf input st.buflen (by omega), hl]
        omega

theorem update_inv (st : Blake2sState) (input : List Nat) (hb : st.buflen ≤ 64)
    (hl : st.buf.length = 64) :
    (blake2s_update st input).buflen ≤ 64 ∧ (blake2s_update st input).buf.length = 64 := by
  obtain ⟨_, _, h3, _, h5⟩ := update_spec st input hb hl
  refine ⟨?_, h5⟩
  rw [h3]
  omega

theorem stEquiv_symm {s s' : Blake2sState} (h : StEquiv s s') : StEquiv s' s :=
  ⟨coreEq_symm h.1, h.2.1.symm, h.2.2.1.symm, h.2.2.2.symm⟩

theorem stEquiv_trans {s s' s'' : Blake2sState} (h : StEquiv s s') (h' : StEquiv s' s'') :
    StEquiv s s'' :=
  ⟨coreEq_trans h.1 h'.1, h.2.1.trans h'.2.1, h.2.2.1.trans h'.2.2.1, h.2.2.2.trans h'.2.2.2⟩

theorem update_append (st : Blake2sState) (a b : List Nat) (hb : st.buflen ≤ 64)
    (hl : st.buf.length = 64) :
    StEquiv (blake2s_update st (a ++ b)) (blake2s_update (blake2s_update st a) b) := by
  obtain ⟨A1, A2, A3, A4, A5⟩ := update_spec st a hb hl
  obtain ⟨hIA1, hIA2⟩ := update_inv st a hb hl
  obtain ⟨B1, B2, B3, B4, B5⟩ := update_spec (blake2s_update st a) b hIA1 hIA2
  obtain ⟨C1, C2, C3, C4, C5⟩ := update_spec st (a ++ b) hb hl
  rw [← List.append_assoc] at C1 C3 C4
  set p1 := st.buf.take st.buflen ++ a with hp1def
  set q := p1 ++ b with hqdef
  set k1 := (p1.length - 1) / 64 with hk1def
  set p2 := (blake2s_update st a).buf.take (blake2s_update st a).buflen ++ b with hp2def
  set k2 := (p2.length - 1) / 64 with hk2def
  set k := (q.length - 1) / 64 with hkdef
  have hlen1 : 64 * k1 ≤ p1.length := by
    rw [hk1def]
    omega
  have htk1 : (p1.take (64 * k1)).length = 64 * k1 := by
    rw [List.length_take]
    omega
  have hq1 : q.take (64 * k1) = p1.take (64 * k1) := by
    rw [hqdef]
    exact List.take_append_of_le_length hlen1
  have hq2 : q.drop (64 * k1) = p2 := by
    rw [hqdef, List.drop_append_of_le_length hlen1, hp2def, A4]
  have hqlen : q.length = p1.length + b.length := by
    rw [hqdef]
    simp
  have hp2len : p2.length = p1.length - 64 * k1 + b.length := by
    rw [hp2def, A4]
    simp
  have hkk : k = k1 + k2 := by
    rw [hkdef, hk1def, hk2def]
    omega
  have hsplitq : q.take (64 * k) = p1.take (64 * k1) ++ p2.take (64 * k2) := by
    rw [hkk, show 64 * (k1 + k2) = 64 * k1 + 64 * k2 from by ring, List.take_add, hq1, hq2]
  have hdropq : q.drop (64 * k) = p2.drop (64 * k2) := by
    rw [hkk, show 64 * (k1 + k2) = 64 * k1 + 64 * k2 from by ring, ← List.drop_drop, hq2]
  have hE : blake2s_compress st (q.take (64 * k)) k 64 =
      blake2s_compress (blake2s_compress st (p1.take (64 * k1)) k1 64) (p2.take (64 * k2)) k2
        64 := by
    rw [hsplitq, hkk, compress_append k1 k2 st (p1.take (64 * k1)) (p2.take (64 * k2)) 64 htk1]
  refine ⟨?_, ?_, ?_, ?_⟩
  · exact coreEq_trans C1 (coreEq_trans (coreEq_of_eq hE)
      (coreEq_trans (compress_congr k2 (p2.take (64 * k2)) 64 (coreEq_symm A1))
        (coreEq_symm B1)))
  · rw [C3, B3]
    omega
  · rw [C4, B4, hdropq]
  · rw [C2, B2, A2]

theorem foldl_update_inv (chunks : List (List Nat)) : ∀ st : Blake2sState,
    st.buflen ≤ 64 → st.buf.length = 64 →
    (chunks.foldl blake2s_update st).buflen ≤ 64 ∧
      (chunks.foldl blake2s_update st).buf.length = 64 := by
  induction chunks with
  | nil => intro st h1 h2; exact ⟨h1, h2⟩
  | cons c cs ih =>
    intro st h1 h2
    obtain ⟨u1, u2⟩ := update_inv st c h1 h2
    exact ih (blake2s_update st c) u1 u2

theorem foldl_update_equiv (chunks : List (List Nat)) : ∀ st : Blake2sState,
    st.buflen ≤ 64 → st.buf.length = 64 →
    StEquiv (chunks.foldl blake2s_update st) (blake2s_update st chunks.flatten) := by
  induction chunks with
  | nil =>
    intro st h1 h2
    rw [show (List.flatten ([] : List (List Nat))) = [] from rfl, update_nil]
    exact ⟨coreEq_refl st, rfl, rfl, rfl⟩
  | cons c cs ih =>
    intro st h1 h2
    obtain ⟨u1, u2⟩ := update_inv st c h1 h2
    exact stEquiv_trans (ih (blake2s_update st c) u1 u2)
      (stEquiv_symm (update_append st c cs.flatten h1 h2))

theorem set_lastblock_rest (st : Blake2sState) :
    (blake2s_set_lastblock st).h = st.h ∧ (blake2s_set_lastblock st).t0 = st.t0 ∧
    (blake2s_set_lastblock st).t1 = st.t1 ∧ (blake2s_set_lastblock st).buf = st.buf ∧
    (blake2s_set_lastblock st).buflen = st.buflen ∧
    (blake2s_set_lastblock st).last_node = st.last_node := by
  by_cases hn : st.last_node ≠ 0 <;> simp [blake2s_set_lastblock, hn]

theorem set_lastblock_flags (st : Blake2sState) :
    (blake2s_set_lastblock st).f0 = 2 ^ 32 - 1 ∧
    (blake2s_set_lastblock st).f1 = if st.last_node ≠ 0 then 2 ^ 32 - 1 else st.f1 := by
  by_cases hn : st.last_node ≠ 0 <;> simp [blake2s_set_lastblock, hn]

/-- blake2s_final in closed form: zero-pad the residual to one block and
compress it once with inc = buflen. -/
theorem final_eq (st : Blake2sState) (outlen : Nat) (hb : st.buflen ≤ 64)
    (hl : st.buf.length = 64) :
    blake2s_final st outlen =
      (((blake2s_compress
          { blake2s_set_lastblock st with
              buf := st.buf.take st.buflen ++ List.replicate (64 - st.buflen) 0 }
          (st.buf.take st.buflen ++ List.replicate (64 - st.buflen) 0) 1 st.buflen).h.flatMap
          le32Bytes).take outlen,
       { h := List.replicate 8 0, t0 := 0, t1 := 0, f0 := 0, f1 := 0,
         buf := List.replicate 64 0, buflen := 0, last_node := 0 }) := by
  have hpad : bufWrite st.buf st.buflen (List.replicate (64 - st.buflen) 0) =
      st.buf.take st.buflen ++ List.replicate (64 - st.buflen) 0 := by
    rw [bufWrite, List.length_replicate, show st.buflen + (64 - st.buflen) = 64 from by omega,
      List.drop_eq_nil_of_le (by omega), List.append_nil]
  obtain ⟨L1, L2, L3, L4, L5, L6⟩ := set_lastblock_rest st
  simp only [blake2s_final, L4, L5, hpad]

theorem final_equiv (s s' : Blake2sState) (h : StEquiv s s') (hbl : s.buflen ≤ 64)
    (hl : s.buf.length = 64) (hl' : s'.buf.length = 64) (outlen : Nat) :
    blake2s_final s outlen = blake2s_final s' outlen := by
  obtain ⟨hc, hbuflen, hbuf, hlast⟩ := h
  have hbl' : s'.buflen ≤ 64 := hbuflen ▸ hbl
  have hpads : s.buf.take s.buflen ++ List.replicate (64 - s.buflen) 0 =
      s'.buf.take s'.buflen ++ List.replicate (64 - s'.buflen) 0 := by
    rw [hbuf, hbuflen]
  obtain ⟨Ls1, Ls2, Ls3, Ls4, Ls5, Ls6⟩ := set_lastblock_rest s
  obtain ⟨Ls1', Ls2', Ls3', Ls4', Ls5', Ls6'⟩ := set_lastblock_rest s'
  obtain ⟨Fs1, Fs2⟩ := set_lastblock_flags s
  obtain ⟨Fs1', Fs2'⟩ := set_lastblock_flags s'
  have hslb : CoreEq (blake2s_set_lastblock s) (blake2s_set_lastblock s') := by
    refine ⟨?_, ?_, ?_, ?_, ?_⟩
    · rw [Ls1, Ls1', hc.1]
    · rw [Ls2, Ls2', hc.2.1]
    · rw [Ls3, Ls3', hc.2.2.1]
    · rw [Fs1, Fs1']
    · rw [Fs2, Fs2', hlast, hc.2.2.2.2]
  rw [final_eq s outlen hbl hl, final_eq s' outlen hbl' hl', Prod.mk.injEq]
  refine ⟨?_, rfl⟩
  have hh : (blake2s_compress
      { blake2s_set_lastblock s with
          buf := s.buf.take s.buflen ++ List.replicate (64 - s.buflen) 0 }
      (s.buf.take s.buflen ++ List.replicate (64 - s.buflen) 0) 1 s.buflen).h =
      (blake2s_compress
      { blake2s_set_lastblock s' with
          buf := s'.buf.take s'.buflen ++ List.replicate (64 - s'.buflen) 0 }
      (s'.buf.take s'.buflen ++ List.replicate (64 - s'.buflen) 0) 1 s'.buflen).h := by
    rw [hpads, hbuflen]
    exact (compress_congr 1
      (s'.buf.take s'.buflen ++ List.replicate (64 - s'.buflen) 0) s'.buflen hslb).1
  rw [hh]

theorem init_buflen (outlen : Nat) : (blake2s_init outlen).buflen ≤ 64 := Nat.zero_le 64

theorem init_buf_length (outlen : Nat) : (blake2s_init outlen).buf.length = 64 := by
  simp [blake2s_init, blake2s_init_param]

theorem compress_block_h_length (st : Blake2sState) (block : List Nat) (inc : Nat) :
    (blake2s_compress_block st block inc).h.length = 8 := rfl

theorem compress_h_length : ∀ (n : Nat) (st : Blake2sState) (blocks : List Nat) (inc : Nat),
    n ≠ 0 → (blake2s_compress st blocks n inc).h.length = 8
  | 0, _, _, _, h => absurd rfl h
  | 1, st, blocks, inc, _ => compress_block_h_length st (blocks.take 64) inc
  | n + 2, st, blocks, inc, _ =>
    compress_h_length (n + 1) (blake2s_compress_block st (blocks.take 64) inc)
      (blocks.drop 64) inc (by omega)

theorem flatMap_le32Bytes_length : ∀ l : List Nat, (l.flatMap le32Bytes).length = 4 * l.length
  | [] => rfl
  | w :: l => by
    simp [List.flatMap_cons, flatMap_le32Bytes_length l, le32Bytes]
    ring

theorem final_digest_length (st : Blake2sState) (hb : st.buflen ≤ 64)
    (hl : st.buf.length = 64) : (blake2s_final st 32).1.length = 32 := by
  rw [final_eq st 32 hb hl]
  show ((_ : List Nat).take 32).length = 32
  rw [List.length_take, flatMap_le32Bytes_length,
    compress_h_length 1 _ _ st.buflen (by omega)]
  decide

theorem hash_length (m : List Nat) : (blake2s_hash m).length = 32 := by
  obtain ⟨hu1, hu2⟩ := update_inv (blake2s_init 32) m (init_buflen 32) (init_buf_length 32)
  exact final_digest_length _ hu1 hu2

theorem update_update_final (a b : List Nat) :
    (blake2s_final (blake2s_update (blake2s_update (blake2s_init 32) a) b) 32).1 =
      blake2s_hash (a ++ b) := by
  obtain ⟨ha1, ha2⟩ := update_inv (blake2s_init 32) a (init_buflen 32) (init_buf_length 32)
  obtain ⟨hb1, hb2⟩ := update_inv (blake2s_update (blake2s_init 32) a) b ha1 ha2
  obtain ⟨hab1, hab2⟩ :=
    update_inv (blake2s_init 32) (a ++ b) (init_buflen 32) (init_buf_length 32)
  rw [blake2s_hash,
    final_equiv _ _ (stEquiv_symm (update_append (blake2s_init 32) a b (init_buflen 32)
      (init_buf_length 32))) hb1 hb2 hab2 32]

theorem bufWrite_zeros (key : List Nat) :
    bufWrite (List.replicate 64 0) 0 key = key ++ List.replicate (64 - key.length) 0 := by
  rw [bufWrite, List.take_zero, List.nil_append, Nat.zero_add, List.drop_replicate]

theorem map_xor_opad (kp : List Nat) :
    ((kp.map fun b => b ^^^ 0x36).map fun b => b ^^^ (0x5c ^^^ 0x36)) =
      kp.map fun b => b ^^^ 0x5c := by
  rw [List.map_map]
  refine List.map_congr_left ?_
  intro b _
  show b ^^^ 0x36 ^^^ (0x5c ^^^ 0x36) = b ^^^ 0x5c
  rw [Nat.xor_assoc, show ((0x36 : Nat) ^^^ (0x5c ^^^ 0x36)) = 0x5c from by decide]

/-! ### Reference vector -/

set_option maxRecDepth 100000 in
/-- Reference check: the BLAKE2s-256 digest of the empty message matches the
published test vector 69217a30...eef9. -/
theorem blake2s_hash_nil_vector :
    blake2s_hash [] =
      [0x69, 0x21, 0x7a, 0x30, 0x79, 0x90, 0x80, 0x94, 0xe1, 0x11, 0x21, 0xd0,
       0x42, 0x35, 0x4a, 0x7c, 0x1f, 0x55, 0xb6, 0x48, 0x2c, 0xa1, 0xa5, 0x1e,
       0x1b, 0x25, 0x0d, 0xfd, 0x1e, 0xd0, 0xee, 0xf9] := by
  decide

/-! ### The claims -/

/-- Claim C1: for every message, every split of it into consecutive chunks,
and every output length in [1, 32], running one blake2s_update per chunk and
then blake2s_final yields the same digest as a single blake2s_update over the
whole message followed by blake2s_final. -/
theorem blake2s_incrementality (m : List Nat) (chunks : List (List Nat)) (outlen : Nat)
    (hchunks : chunks.flatten = m) (h1 : 1 ≤ outlen) (h2 : outlen ≤ 32) :
    blake2s_final (chunks.foldl blake2s_update (blake2s_init outlen)) outlen =
      blake2s_final (blake2s_update (blake2s_init outlen) m) outlen := by
  subst hchunks
  obtain ⟨hf1, hf2⟩ :=
    foldl_update_inv chunks (blake2s_init outlen) (init_buflen outlen) (init_buf_length outlen)
  obtain ⟨hu1, hu2⟩ := update_inv (blake2s_init outlen) chunks.flatten (init_buflen outlen)
    (init_buf_length outlen)
  exact final_equiv _ _
    (foldl_update_equiv chunks (blake2s_init outlen) (init_buflen outlen)
      (init_buf_length outlen)) hf1 hf2 hu2 outlen

theorem blake2s_incrementality_witness :
    ([[1], [2, 3]] : List (List Nat)).flatten = [1, 2, 3] ∧ 1 ≤ 32 ∧ (32 : Nat) ≤ 32 ∧
      blake2s_final ([[1], [2, 3]].foldl blake2s_update (blake2s_init 32)) 32 =
        blake2s_final (blake2s_update (blake2s_init 32) [1, 2, 3]) 32 :=
  ⟨by decide, by decide, by decide,
    blake2s_incrementality [1, 2, 3] [[1], [2, 3]] 32 (by decide) (by decide) (by decide)⟩

/-- Claim C2 counterexample: with an empty buffer and input of exactly one
block (64 bytes) — so the buffered bytes plus the input exactly fill a block —
blake2s_update does not compress and does not clear the fill counter, as the
claim's top-off step would require; it buffers the whole block (the deliberate
hold-back), leaving buflen = 64 and the byte counter t0 = 0. -/
theorem blake2s_update_exact_fill_holds_block :
    ¬ ((blake2s_update (blake2s_init 32) (List.replicate 64 0)).buflen = 0 ∧
       (blake2s_update (blake2s_init 32) (List.replicate 64 0)).t0 = 64) := by
  decide

/-- Claim C2 (amended): when the buffered bytes plus the input strictly exceed
one 64-byte block, blake2s_update first copies exactly 64 - buflen input bytes
to top the internal buffer off to one full 64-byte block, compresses that
single block with inc = 64, and clears the fill counter, before the tail loop
handles the remaining input. -/
theorem blake2s_update_topoff (st : Blake2sState) (input : List Nat)
    (hb : st.buflen ≤ 64) (hl : st.buf.length = 64)
    (hgt : st.buflen + input.length > 64) :
    (input.take (64 - st.buflen)).length = 64 - st.buflen ∧
    (bufWrite st.buf st.buflen (input.take (64 - st.buflen))).length = 64 ∧
    blake2s_update st input =
      blake2s_update_tail
        { blake2s_compress
            { st with buf := bufWrite st.buf st.buflen (input.take (64 - st.buflen)) }
            (bufWrite st.buf st.buflen (input.take (64 - st.buflen))) 1 64
          with buflen := 0 }
        (input.drop (64 - st.buflen)) := by
  have hz : ¬ input.length = 0 := by omega
  have hfill : input.length > 64 - st.buflen := by omega
  have hfl : (input.take (64 - st.buflen)).length = 64 - st.buflen := by
    simp [List.length_take]
    omega
  refine ⟨hfl, ?_, ?_⟩
  · rw [bufWrite_length st.buf _ st.buflen (by omega), hfl, hl]
    omega
  · simp only [blake2s_update, if_neg hz, if_pos hfill]

theorem blake2s_update_topoff_witness :
    (blake2s_init 32).buflen ≤ 64 ∧ (blake2s_init 32).buf.length = 64 ∧
      (blake2s_init 32).buflen + (List.replicate 65 0).length > 64 ∧
      ((List.replicate 65 0).take (64 - (blake2s_init 32).buflen)).length =
        64 - (blake2s_init 32).buflen :=
  ⟨by decide, by decide, by decide,
    (blake2s_update_topoff (blake2s_init 32) (List.replicate 65 0) (by decide) (by decide)
      (by decide)).1⟩

set_option maxRecDepth 100000 in
/-- Claim C3 counterexample: the 1-byte digest of the empty message (0xa1) is
not the first byte of its 32-byte digest (0x69): the parameter block binds the
requested digest length into the initial chain value, so runs initialized with
different output lengths produce unrelated digests. -/
theorem blake2s_digest_not_truncation :
    (blake2s_final (blake2s_update (blake2s_init 1) []) 1).1 ≠
      ((blake2s_final (blake2s_update (blake2s_init 32) []) 32).1).take 1 := by
  decide

/-- Claim C3 (amended): truncation holds only across the final copy-out, with
the initialization length held fixed: for every message and k in [1, 32], the
digest of init k / update / final k equals the first k bytes of the digest of
init k / update / final 32.  When the reference run is initialized with output
length 32, as the claim states it, the equality fails (see the counterexample). -/
theorem blake2s_final_truncates (m : List Nat) (k : Nat) (h1 : 1 ≤ k) (h2 : k ≤ 32) :
    (blake2s_final (blake2s_update (blake2s_init k) m) k).1 =
      ((blake2s_final (blake2s_update (blake2s_init k) m) 32).1).take k := by
  simp only [blake2s_final, List.take_take]
  rw [Nat.min_eq_left h2]

theorem blake2s_final_truncates_witness :
    1 ≤ 5 ∧ (5 : Nat) ≤ 32 ∧
      (blake2s_final (blake2s_update (blake2s_init 5) [7]) 5).1 =
        ((blake2s_final (blake2s_update (blake2s_init 5) [7]) 32).1).take 5 :=
  ⟨by decide, by decide, blake2s_final_truncates [7] 5 (by decide) (by decide)⟩

/-- Claim C5: blake2s_final erases the whole state: after it returns, the
chain value words, both counter words, both flag words, all 64 buffer bytes,
the fill length, and the last_node flag are zero. -/
theorem blake2s_final_wipes (st : Blake2sState) (outlen : Nat)
    (h1 : 1 ≤ outlen) (h2 : outlen ≤ 32) :
    (blake2s_final st outlen).2.h = List.replicate 8 0 ∧
    (blake2s_final st outlen).2.t0 = 0 ∧ (blake2s_final st outlen).2.t1 = 0 ∧
    (blake2s_final st outlen).2.f0 = 0 ∧ (blake2s_final st outlen).2.f1 = 0 ∧
    (blake2s_final st outlen).2.buf = List.replicate 64 0 ∧
    (blake2s_final st outlen).2.buflen = 0 ∧
    (blake2s_final st outlen).2.last_node = 0 :=
  ⟨rfl, rfl, rfl, rfl, rfl, rfl, rfl, rfl⟩

theorem blake2s_final_wipes_witness :
    (1 : Nat) ≤ 32 ∧ (blake2s_final (blake2s_init 32) 32).2.buflen = 0 :=
  ⟨by decide, (blake2s_final_wipes (blake2s_init 32) 32 (by decide) (by decide)).2.2.2.2.2.2.1⟩

/-- Claim C7: blake2s_final zero-pads the buffered residual (of original
length buflen) out to one full 64-byte block and invokes the compression
function exactly once on it, with inc equal to the residual's pre-padding
length buflen — zero when nothing is buffered. -/
theorem blake2s_final_last_block (st : Blake2sState) (outlen : Nat)
    (hb : st.buflen ≤ 64) (hl : st.buf.length = 64) :
    (st.buf.take st.buflen ++ List.replicate (64 - st.buflen) 0).length = 64 ∧
    blake2s_final st outlen =
      (((blake2s_compress
          { blake2s_set_lastblock st with
              buf := st.buf.take st.buflen ++ List.replicate (64 - st.buflen) 0 }
          (st.buf.take st.buflen ++ List.replicate (64 - st.buflen) 0) 1 st.buflen).h.flatMap
          le32Bytes).take outlen,
       { h := List.replicate 8 0, t0 := 0, t1 := 0, f0 := 0, f1 := 0,
         buf := List.replicate 64 0, buflen := 0, last_node := 0 }) := by
  refine ⟨?_, final_eq st outlen hb hl⟩
  simp [List.length_take]
  omega

theorem blake2s_final_last_block_witness :
    (blake2s_init 32).buflen ≤ 64 ∧
      ((blake2s_init 32).buf.take (blake2s_init 32).buflen ++
        List.replicate (64 - (blake2s_init 32).buflen) 0).length = 64 :=
  ⟨by decide, (blake2s_final_last_block (blake2s_init 32) 32 (by decide) (by decide)).1⟩

/-- Claim C8: blake2s_set_lastblock sets the first flag word f0 to all-ones
(2^32 - 1) unconditionally, sets f1 to all-ones exactly when last_node is set
and leaves it unchanged otherwise, and modifies no other state field. -/
theorem blake2s_set_lastblock_spec (st : Blake2sState) :
    (blake2s_set_lastblock st).f0 = 2 ^ 32 - 1 ∧
    (blake2s_set_lastblock st).f1 = (if st.last_node ≠ 0 then 2 ^ 32 - 1 else st.f1) ∧
    (blake2s_set_lastblock st).h = st.h ∧ (blake2s_set_lastblock st).t0 = st.t0 ∧
    (blake2s_set_lastblock st).t1 = st.t1 ∧ (blake2s_set_lastblock st).buf = st.buf ∧
    (blake2s_set_lastblock st).buflen = st.buflen ∧
    (blake2s_set_lastblock st).last_node = st.last_node := by
  obtain ⟨g1, g2⟩ := set_lastblock_flags st
  obtain ⟨r1, r2, r3, r4, r5, r6⟩ := set_lastblock_rest st
  exact ⟨g1, g2, r1, r2, r3, r4, r5, r6⟩

/-- Claim C9: blake2s_increment_counter advances the 64-bit counter held in
(t1, t0) by inc modulo 2^64, and the high word gains exactly one (with 32-bit
wrap) precisely when the 32-bit addition to the low word overflows. -/
theorem blake2s_increment_counter_spec (st : Blake2sState) (inc : Nat)
    (h0 : st.t0 < 2 ^ 32) (h1 : st.t1 < 2 ^ 32) (hinc : inc < 2 ^ 32) :
    (blake2s_increment_counter st inc).t1 * 2 ^ 32 + (blake2s_increment_counter st inc).t0 =
      (st.t1 * 2 ^ 32 + st.t0 + inc) % 2 ^ 64 ∧
    (blake2s_increment_counter st inc).t1 =
      (if st.t0 + inc < 2 ^ 32 then st.t1 else (st.t1 + 1) % 2 ^ 32) := by
  simp only [blake2s_increment_counter]
  constructor
  · split <;> omega
  · split <;> split <;> omega

theorem blake2s_increment_counter_witness :
    (blake2s_init 32).t0 < 2 ^ 32 ∧
      (blake2s_increment_counter (blake2s_init 32) 5).t1 * 2 ^ 32 +
        (blake2s_increment_counter (blake2s_init 32) 5).t0 =
        ((blake2s_init 32).t1 * 2 ^ 32 + (blake2s_init 32).t0 + 5) % 2 ^ 64 :=
  ⟨by decide,
    (blake2s_increment_counter_spec (blake2s_init 32) 5 (by decide) (by decide) (by decide)).1⟩

/-- Claim C10: the fill length never exceeds the 64-byte block size: the bound
holds after blake2s_init and blake2s_init_key and is preserved by every
blake2s_update call whatever the input length, and the internal buffer always
remains exactly 64 bytes, so neither the buffering memcpy nor the padding
memset writes past it. -/
theorem blake2s_buflen_invariant :
    (∀ outlen, (blake2s_init outlen).buflen ≤ 64 ∧ (blake2s_init outlen).buf.length = 64) ∧
    (∀ outlen key, (blake2s_init_key outlen key).buflen ≤ 64 ∧
      (blake2s_init_key outlen key).buf.length = 64) ∧
    (∀ st input, st.buflen ≤ 64 → st.buf.length = 64 →
      (blake2s_update st input).buflen ≤ 64 ∧ (blake2s_update st input).buf.length = 64) := by
  have hinit : ∀ p : blake2s_param, (blake2s_init_param p).buflen ≤ 64 ∧
      (blake2s_init_param p).buf.length = 64 :=
    fun p => ⟨Nat.zero_le 64, by simp [blake2s_init_param]⟩
  refine ⟨fun outlen => hinit _, fun outlen key => ?_,
    fun st input hb hl => update_inv st input hb hl⟩
  exact update_inv (blake2s_init_param (blake2s_default_param outlen key.length))
    (bufWrite (List.replicate 64 0) 0 key) (hinit _).1 (hinit _).2

theorem blake2s_buflen_invariant_witness :
    (blake2s_update (blake2s_init 32) [1, 2, 3]).buflen ≤ 64 :=
  (blake2s_buflen_invariant.2.2 (blake2s_init 32) [1, 2, 3] (by decide) (by decide)).1

/-- Claim C4: blake2s_hmac writes the first outlen bytes of
H((K XOR 0x5c-pad) || H((K XOR 0x36-pad) || message)), where H is unkeyed
32-byte BLAKE2s, K is the 64-byte zero-padded key when keylen ≤ 64, and
otherwise the 32-byte unkeyed hash of the key, zero-padded to 64 bytes. -/
theorem blake2s_hmac_correct (input key : List Nat) (outlen : Nat)
    (h1 : 1 ≤ outlen) (h2 : outlen ≤ 32) :
    blake2s_hmac input key outlen = hmac_spec input key outlen := by
  by_cases hk : key.length > 64
  · have hxkey : bufWrite (List.replicate 64 0) 0
        (blake2s_final (blake2s_update (blake2s_init 32) key) 32).1 =
        blake2s_hash key ++ List.replicate 32 0 := by
      rw [show (blake2s_final (blake2s_update (blake2s_init 32) key) 32).1 =
          blake2s_hash key from rfl, bufWrite_zeros, hash_length]
    simp only [blake2s_hmac, hmac_spec, if_pos hk,
      if_neg (show ¬ key.length ≤ 64 from by omega), hxkey, map_xor_opad,
      update_update_final]
  · simp only [blake2s_hmac, hmac_spec, if_neg hk,
      if_pos (show key.length ≤ 64 from by omega), bufWrite_zeros, map_xor_opad,
      update_update_final]

theorem blake2s_hmac_correct_witness :
    (1 : Nat) ≤ 32 ∧ blake2s_hmac [1] [2] 32 = hmac_spec [1] [2] 32 :=
  ⟨by decide, blake2s_hmac_correct [1] [2] 32 (by decide) (by decide)⟩

/-- Claim C6: after blake2s_init with output length outlen in [1, 32], the
chain value is h[i] = IV[i] XOR param_word[i] for the byte-for-byte
little-endian packed parameter block with digest_length = outlen,
key_length = 0, fanout = 1, depth = 1 and all other fields zero; concretely
h[0] = IV[0] XOR (outlen OR 0x01010000) and h[i] = IV[i] for i = 1..7, with
counter, flags, buffer, and fill length all zero. -/
theorem blake2s_init_chain_value (outlen : Nat) (h1 : 1 ≤ outlen) (h2 : outlen ≤ 32) :
    (∀ i, i < 8 → (blake2s_init outlen).h.getD i 0 =
      iv i ^^^ paramWord (blake2s_default_param outlen 0) i) ∧
    (blake2s_init outlen).h =
      [iv 0 ^^^ (outlen ||| 0x01010000), iv 1, iv 2, iv 3, iv 4, iv 5, iv 6, iv 7] ∧
    (blake2s_init outlen).t0 = 0 ∧ (blake2s_init outlen).t1 = 0 ∧
    (blake2s_init outlen).f0 = 0 ∧ (blake2s_init outlen).f1 = 0 ∧
    (blake2s_init outlen).buf = List.replicate 64 0 ∧ (blake2s_init outlen).buflen = 0 := by
  have hor : outlen ||| 0x01010000 = outlen + 16842752 := by
    interval_cases outlen <;> decide
  have hw0 : paramWord (blake2s_default_param outlen 0) 0 = outlen + 16842752 := by
    show outlen + 256 * 0 + 65536 * 1 + 16777216 * 1 = outlen + 16842752
    omega
  have hw1 : paramWord (blake2s_default_param outlen 0) 1 = 0 := by
    show (0 : Nat) % 256 + 256 * (0 / 256 % 256) + 65536 * (0 / 65536 % 256) +
        16777216 * (0 / 16777216 % 256) = 0
    decide
  have hw2 : paramWord (blake2s_default_param outlen 0) 2 = 0 := by
    show (0 : Nat) % 256 + 256 * (0 / 256 % 256) + 65536 * (0 / 65536 % 256) +
        16777216 * (0 / 16777216 % 256) = 0
    decide
  have hw3 : paramWord (blake2s_default_param outlen 0) 3 = 0 := by
    show (0 : Nat) % 256 + 256 * (0 / 256 % 256) + 65536 * 0 + 16777216 * 0 = 0
    decide
  have hw4 : paramWord (blake2s_default_param outlen 0) 4 = 0 := rfl
  have hw5 : paramWord (blake2s_default_param outlen 0) 5 = 0 := rfl
  have hw6 : paramWord (blake2s_default_param outlen 0) 6 = 0 := rfl
  have hw7 : paramWord (blake2s_default_param outlen 0) 7 = 0 := rfl
  have hlist : (blake2s_init outlen).h =
      [iv 0 ^^^ (outlen ||| 0x01010000), iv 1, iv 2, iv 3, iv 4, iv 5, iv 6, iv 7] := by
    rw [show (blake2s_init outlen).h =
        [iv 0 ^^^ paramWord (blake2s_default_param outlen 0) 0,
         iv 1 ^^^ paramWord (blake2s_default_param outlen 0) 1,
         iv 2 ^^^ paramWord (blake2s_default_param outlen 0) 2,
         iv 3 ^^^ paramWord (blake2s_default_param outlen 0) 3,
         iv 4 ^^^ paramWord (blake2s_default_param outlen 0) 4,
         iv 5 ^^^ paramWord (blake2s_default_param outlen 0) 5,
         iv 6 ^^^ paramWord (blake2s_default_param outlen 0) 6,
         iv 7 ^^^ paramWord (blake2s_default_param outlen 0) 7] from rfl,
      hw0, hw1, hw2, hw3, hw4, hw5, hw6, hw7, ← hor]
    simp only [Nat.xor_zero]
  refine ⟨?_, hlist, rfl, rfl, rfl, rfl, rfl, rfl⟩
  intro i hi
  rw [hlist]
  interval_cases i
  · rw [List.getD_cons_zero, hw0, hor]
  · rw [hw1, Nat.xor_zero]
    rfl
  · rw [hw2, Nat.xor_zero]
    rfl
  · rw [hw3, Nat.xor_zero]
    rfl
  · rw [hw4, Nat.xor_zero]
    rfl
  · rw [hw5, Nat.xor_zero]
    rfl
  · rw [hw6, Nat.xor_zero]
    rfl
  · rw [hw7, Nat.xor_zero]
    rfl

theorem blake2s_init_chain_value_witness :
    (1 : Nat) ≤ 32 ∧ (blake2s_init 32).t0 = 0 :=
  ⟨by decide, (blake2s_init_chain_value 32 (by decide) (by decide)).2.2.1⟩

end Blake2s
